import Mathlib

/-!
Verification of the fixed-size thread pool in `src/lib.rs`.

The pool owns a vector of Workers and the sending half of one mpsc
channel.  Each Worker owns a thread running a loop that locks the shared
receiver, takes one `Message`, releases the lock, and either runs the
received Job or exits on `Terminate`.  Jobs are type-erased one-shot
closures (`type Job = Box<FnBox + Send>`); their only observable effect
in this model is being invoked, so a Job is identified by a natural
number and executing it records that number.
-/

namespace HelloServer

/-- `enum Message { NewJob(Job), Terminate }`.  A Job is identified by a
natural number. -/
inductive Message where
  | NewJob (job : Nat)
  | Terminate
deriving DecidableEq, Repr

/-- State of the mpsc channel: the FIFO queue of sent messages, plus
whether the sending half has been dropped (disconnected). -/
structure Channel where
  queue : List Message
  closed : Bool
deriving DecidableEq, Repr

/-- `sender.send(m)`: appends `m` to the queue; fails (the `.unwrap()`
panics) exactly when the channel is closed. -/
def Channel.send (c : Channel) (m : Message) : Option Channel :=
  if c.closed then none else some { c with queue := c.queue ++ [m] }

/-- Possible outcomes of `receiver.recv()`. -/
inductive RecvResult where
  | msg (m : Message)
  | blocked
  | disconnected
deriving DecidableEq, Repr

/-- `receiver.recv()`: pops the front message; on an empty queue it blocks
while a sender is alive and reports disconnection once the channel is
closed. -/
def Channel.recv (c : Channel) : RecvResult × Channel :=
  match c.queue with
  | m :: rest => (RecvResult.msg m, { c with queue := rest })
  | [] => if c.closed then (RecvResult.disconnected, c) else (RecvResult.blocked, c)

/-- `struct Worker { id: usize, thread: Option<JoinHandle<()>> }`.  The
join handle carries no data we track, so it is `Option Unit`. -/
structure Worker where
  id : Nat
  thread : Option Unit
deriving DecidableEq, Repr

/-- `Worker::new`: the worker starts with a live thread handle. -/
def Worker.new (id : Nat) : Worker :=
  { id := id, thread := some () }

/-- `struct ThreadPool { workers: Vec<Worker>, sender: mpsc::Sender<Message> }`.
The `channel` field is the state of the channel the sender feeds. -/
structure ThreadPool where
  workers : List Worker
  channel : Channel
deriving DecidableEq, Repr

/-- `ThreadPool::new(size)`: `assert!(size > 0)` (modelled as `none` on
failure), then create the channel and push `Worker::new(id)` for
`id in 0..size`. -/
def ThreadPool.new (size : Nat) : Option ThreadPool :=
  if 0 < size then
    some { workers := (List.range size).map Worker.new,
           channel := { queue := [], closed := false } }
  else none

/-- `ThreadPool::execute(f)`: box `f` and `sender.send(Message::NewJob(job)).unwrap()`;
`none` models the panic when the send fails. -/
def ThreadPool.execute (p : ThreadPool) (f : Nat) : Option ThreadPool :=
  match p.channel.send (Message.NewJob f) with
  | some c => some { p with channel := c }
  | none => none

/-- The first loop of `Drop::drop`: `for _ in &self.workers` send one
`Terminate`, unwrapping each send. -/
def sendTerminates (c : Channel) : Nat → Option Channel
  | 0 => some c
  | n + 1 =>
    match c.send Message.Terminate with
    | some c' => sendTerminates c' n
    | none => none

/-- The second loop of `Drop::drop`: for each worker in vector order,
`worker.thread.take()` and join the handle if it was present.  Returns
the ids joined, in order, and the workers after their handles are taken. -/
def joinWorkers : List Worker → List Nat × List Worker
  | [] => ([], [])
  | w :: ws =>
    let rest := joinWorkers ws
    match w.thread with
    | some _ => (w.id :: rest.1, { w with thread := none } :: rest.2)
    | none => (rest.1, w :: rest.2)

/-- The body of `Drop for ThreadPool`: send one `Terminate` per worker,
then join every worker thread.  `none` models a panic of an `.unwrap()`. -/
def ThreadPool.dropPool (p : ThreadPool) : Option (Channel × List Nat × List Worker) :=
  match sendTerminates p.channel p.workers.length with
  | some c =>
    let j := joinWorkers p.workers
    some (c, j.1, j.2)
  | none => none

/-- The full destruction of a pool: after the `drop` body runs, the
`sender` field itself is dropped, which is what closes the channel.
The channel is closed strictly after all sends and joins. -/
def ThreadPool.dropFull (p : ThreadPool) : Option (Channel × List Nat × List Worker) :=
  match p.dropPool with
  | some (c, ids, ws) => some ({ c with closed := true }, ids, ws)
  | none => none

/-- The worker loop, viewed as a function of the sequence of messages this
worker receives from the channel: it returns the jobs invoked, in order,
and whether the loop exited via `break`.  `NewJob` runs the job once and
loops; `Terminate` breaks without touching later messages; an exhausted
list means the worker is still blocked in `recv`. -/
def workerRun : List Message → List Nat × Bool
  | [] => ([], false)
  | Message.NewJob j :: rest =>
    let r := workerRun rest
    (j :: r.1, r.2)
  | Message.Terminate :: _ => ([], true)

/-- Atomic actions of one worker-loop iteration, used to talk about lock
discipline and execution order. -/
inductive Action where
  | lockAcquire
  | recvMsg
  | lockRelease
  | jobBegin (j : Nat)
  | jobEnd (j : Nat)
  | exitLoop
deriving DecidableEq, Repr

/-- One iteration of the loop body for a received message.  In
`let message = receiver.lock().unwrap().recv().unwrap();` the
`MutexGuard` is a temporary of the `let` statement and is dropped at the
end of that statement, so the lock is released before the `match` on the
message runs the job or breaks. -/
def loopBody : Message → List Action
  | Message.NewJob j =>
    [Action.lockAcquire, Action.recvMsg, Action.lockRelease,
     Action.jobBegin j, Action.jobEnd j]
  | Message.Terminate =>
    [Action.lockAcquire, Action.recvMsg, Action.lockRelease, Action.exitLoop]

/-- The action trace of the worker loop over its received messages:
iterations concatenate until a `Terminate` breaks the loop. -/
def workerTrace : List Message → List Action
  | [] => []
  | m :: rest =>
    loopBody m ++
      (match m with
       | Message.Terminate => []
       | Message.NewJob _ => workerTrace rest)

/-- Whether the worker holds the receiver lock after performing an action,
given whether it held it before. -/
def lockAfter (held : Bool) (a : Action) : Bool :=
  match a with
  | Action.lockAcquire => true
  | Action.lockRelease => false
  | _ => held

/-- Pairs each action of a trace with the lock state in force while that
action runs. -/
def lockStates : Bool → List Action → List (Action × Bool)
  | _, [] => []
  | held, a :: rest => (a, held) :: lockStates (lockAfter held a) rest

/-- Worker states of the spec state machine. -/
inductive WState where
  | idle
  | busy (j : Nat)
  | terminated
deriving DecidableEq, Repr

/-- Events a worker can undergo: receiving a message, or finishing the
job it is running. -/
inductive WEvent where
  | recv (m : Message)
  | complete
deriving DecidableEq, Repr

/-- The transition function of one worker, read off the loop body: an
idle worker that receives a job becomes busy with it; a busy worker that
completes returns to idle; an idle worker that receives `Terminate`
breaks out of the loop.  Nothing else is possible. -/
def workerTrans : WState → WEvent → Option WState
  | WState.idle, WEvent.recv (Message.NewJob j) => some (WState.busy j)
  | WState.busy _, WEvent.complete => some WState.idle
  | WState.idle, WEvent.recv Message.Terminate => some WState.terminated
  | _, _ => none

/-- A sequence of `execute` calls on a pool, panicking (`none`) if any
send fails. -/
def execAll (p : ThreadPool) : List Nat → Option ThreadPool
  | [] => some p
  | j :: js =>
    match p.execute j with
    | some p' => execAll p' js
    | none => none

/-- The pool obtained by `ThreadPool::new(size)` followed by one
`execute` per element of `jobs`. -/
def poolAfter (size : Nat) (jobs : List Nat) : Option ThreadPool :=
  match ThreadPool.new size with
  | some p => execAll p jobs
  | none => none

/-- The sublist of `l` whose positions (counting from `k`) the claim
schedule `σ` assigns to worker `w`.  The channel delivers each message to
exactly one worker; `σ i` names the worker that dequeues the i-th
message. -/
def claimFrom (σ : Nat → Nat) (w : Nat) : Nat → List α → List α
  | _, [] => []
  | k, x :: rest =>
    if σ k = w then x :: claimFrom σ w (k + 1) rest
    else claimFrom σ w (k + 1) rest

/-- The jobs worker `w` executes when the messages of `msgs` are claimed
according to `σ`. -/
def executedBy (msgs : List Message) (σ : Nat → Nat) (w : Nat) : List Nat :=
  (workerRun (claimFrom σ w 0 msgs)).1

/-- How many workers of a pool-wide state are running a job. -/
def countBusy (ss : List WState) : Nat :=
  (ss.filter (fun s =>
    match s with
    | WState.busy _ => true
    | _ => false)).length

/-- One step of the whole pool: some worker `i` undergoes an event its
transition function allows.  No step adds or removes a worker: threads
exist only from construction. -/
inductive sysStep : List WState → List WState → Prop where
  | mk (i : Nat) (e : WEvent) (s' : WState) (ss : List WState)
      (h : i < ss.length)
      (ht : workerTrans (ss.get ⟨i, h⟩) e = some s') :
      sysStep ss (ss.set i s')

/-- Pool-wide states reachable from an initial state by worker steps. -/
inductive reachable (init : List WState) : List WState → Prop where
  | refl : reachable init init
  | step {ss ss' : List WState} :
      reachable init ss → sysStep ss ss' → reachable init ss'

/-- Observable events of the `Drop` body, for stating the order of
operations during shutdown. -/
inductive DropEvent where
  | sendTerminate
  | joinThread (id : Nat)
deriving DecidableEq, Repr

/-- The event sequence of the `Drop` body, read off the source: the first
loop performs one `send(Terminate)` per worker, and only after it ends
does the second loop join the threads, in vector order. -/
def dropTrace (p : ThreadPool) : List DropEvent :=
  List.replicate p.workers.length DropEvent.sendTerminate ++
    (joinWorkers p.workers).1.map DropEvent.joinThread

/-! ## Lemmas and claim theorems -/

theorem execAll_open (js : List Nat) : ∀ (p : ThreadPool),
    p.channel.closed = false →
    execAll p js = some { workers := p.workers,
                          channel := { queue := p.channel.queue ++ js.map Message.NewJob,
                                       closed := false } } := by
  induction js with
  | nil =>
    intro p h
    obtain ⟨ws, q, cl⟩ := p
    dsimp at h
    subst h
    simp [execAll]
  | cons j t ih =>
    intro p h
    have hstep : p.execute j = some { workers := p.workers,
                                      channel := { queue := p.channel.queue ++ [Message.NewJob j],
                                                   closed := false } } := by
      obtain ⟨ws, q, cl⟩ := p
      dsimp at h
      subst h
      simp [ThreadPool.execute, Channel.send]
    have := ih { workers := p.workers,
                 channel := { queue := p.channel.queue ++ [Message.NewJob j],
                              closed := false } } rfl
    simp only [execAll, hstep, this]
    simp

theorem poolAfter_eq (size : Nat) (jobs : List Nat) (h : 0 < size) :
    poolAfter size jobs =
      some { workers := (List.range size).map Worker.new,
             channel := { queue := jobs.map Message.NewJob, closed := false } } := by
  have hnew : ThreadPool.new size =
      some { workers := (List.range size).map Worker.new,
             channel := { queue := ([] : List Message), closed := false } } := by
    simp [ThreadPool.new, h]
  simp only [poolAfter, hnew]
  have := execAll_open jobs
      { workers := (List.range size).map Worker.new,
        channel := { queue := [], closed := false } } rfl
  simpa using this

theorem sendTerminates_open : ∀ (n : Nat) (c : Channel), c.closed = false →
    sendTerminates c n =
      some { queue := c.queue ++ List.replicate n Message.Terminate,
             closed := false } := by
  intro n
  induction n with
  | zero =>
    intro c h
    obtain ⟨q, cl⟩ := c
    dsimp at h
    subst h
    simp [sendTerminates]
  | succ k ih =>
    intro c h
    have hstep : c.send Message.Terminate =
        some { queue := c.queue ++ [Message.Terminate], closed := false } := by
      obtain ⟨q, cl⟩ := c
      dsimp at h
      subst h
      simp [Channel.send]
    have := ih { queue := c.queue ++ [Message.Terminate], closed := false } rfl
    simp only [sendTerminates, hstep, this]
    simp [List.replicate_succ, List.append_assoc]

theorem joinWorkers_new (ids : List Nat) :
    joinWorkers (ids.map Worker.new) =
      (ids, ids.map fun i => { id := i, thread := none }) := by
  induction ids with
  | nil => rfl
  | cons i t ih => simp [joinWorkers, Worker.new, ih]

/-- C1: for every `size > 0`, `ThreadPool::new(size)` returns a pool whose
workers are exactly `size` many, with ids the distinct integers
`0..size-1` in vector order, together with the sending half of one fresh
open channel; `ThreadPool::new(0)` fails the assertion before any worker
is created. -/
theorem C1_new_pool :
    (∀ size : Nat, 0 < size →
      ∃ p, ThreadPool.new size = some p ∧
        p.workers.length = size ∧
        p.workers.map Worker.id = List.range size ∧
        (p.workers.map Worker.id).Nodup ∧
        p.channel = { queue := [], closed := false }) ∧
    ThreadPool.new 0 = none := by
  constructor
  · intro size h
    refine ⟨{ workers := (List.range size).map Worker.new,
              channel := { queue := [], closed := false } }, ?_, ?_, ?_, ?_, rfl⟩
    · simp [ThreadPool.new, h]
    · simp
    · simp only [List.map_map]
      have hcomp : Worker.id ∘ Worker.new = id := rfl
      rw [hcomp, List.map_id]
    · simp only [List.map_map]
      have hcomp : Worker.id ∘ Worker.new = id := rfl
      rw [hcomp, List.map_id]
      exact List.nodup_range size
  · rfl

/-- Witness for C1 at `size = 3` and `size = 0`. -/
theorem C1_new_pool_witness :
    (0 < 3 ∧ ∃ p, ThreadPool.new 3 = some p ∧
      p.workers.length = 3 ∧
      p.workers.map Worker.id = List.range 3 ∧
      (p.workers.map Worker.id).Nodup ∧
      p.channel = { queue := [], closed := false }) ∧
    ThreadPool.new 0 = none :=
  ⟨⟨by decide, C1_new_pool.1 3 (by decide)⟩, C1_new_pool.2⟩

/-- C4: `execute(f)` boxes `f` and sends exactly one `NewJob` message on
the channel (the queue grows by that one message), returning nothing;
when the send fails because the channel is closed, `execute` panics
(modelled by `none`) instead of dropping the job. -/
theorem C4_execute :
    (∀ (p : ThreadPool) (f : Nat), p.channel.closed = false →
      p.execute f = some { p with channel :=
        { p.channel with queue := p.channel.queue ++ [Message.NewJob f] } }) ∧
    (∀ (p : ThreadPool) (f : Nat), p.channel.closed = true →
      p.execute f = none) := by
  constructor <;> intro p f h <;> simp [ThreadPool.execute, Channel.send, h]

/-- Witness for C4 on a concrete open pool and a concrete closed pool. -/
theorem C4_execute_witness :
    ThreadPool.execute
        { workers := [], channel := { queue := [], closed := false } } 5 =
      some { workers := [],
             channel := { queue := [Message.NewJob 5], closed := false } } ∧
    ThreadPool.execute
        { workers := [], channel := { queue := [], closed := true } } 5 = none :=
  ⟨C4_execute.1 { workers := [], channel := { queue := [], closed := false } } 5 rfl,
   C4_execute.2 { workers := [], channel := { queue := [], closed := true } } 5 rfl⟩

/-- C5: the worker loop realises exactly the spec state machine: an idle
worker receiving a job becomes busy with it and, on completion, idle
again; an idle worker receiving `Terminate` becomes terminated; no
transition leaves the terminated state, while idle and busy each admit a
transition; over the received message sequence, a `NewJob` runs that job
exactly once and the loop continues, and a `Terminate` exits the loop
without processing any further message. -/
theorem C5_state_machine :
    (∀ j, workerTrans WState.idle (WEvent.recv (Message.NewJob j)) =
      some (WState.busy j)) ∧
    (∀ j, workerTrans (WState.busy j) WEvent.complete = some WState.idle) ∧
    workerTrans WState.idle (WEvent.recv Message.Terminate) =
      some WState.terminated ∧
    (∀ e, workerTrans WState.terminated e = none) ∧
    (∃ e s', workerTrans WState.idle e = some s') ∧
    (∀ j, ∃ e s', workerTrans (WState.busy j) e = some s') ∧
    (∀ j rest, workerRun (Message.NewJob j :: rest) =
      (j :: (workerRun rest).1, (workerRun rest).2)) ∧
    (∀ rest, workerRun (Message.Terminate :: rest) = ([], true)) := by
  refine ⟨fun j => rfl, fun j => rfl, rfl, ?_,
    ⟨WEvent.recv Message.Terminate, WState.terminated, rfl⟩,
    fun j => ⟨WEvent.complete, WState.idle, rfl⟩,
    fun j rest => rfl, fun rest => rfl⟩
  intro e
  cases e with
  | recv m => cases m <;> rfl
  | complete => rfl

/-- C2: on `Drop`, the pool first enqueues exactly one `Terminate` per
worker (the drop trace begins with `workers.length` send events), and
only then joins every worker thread, in worker-id order, each handle
taken exactly once (every worker ends with `thread = none`); the joins
cover every worker, so `drop` returns only once each worker thread has
exited. -/
theorem C2_shutdown :
    ∀ (size : Nat) (jobs : List Nat) (p : ThreadPool), 0 < size →
      poolAfter size jobs = some p →
      dropTrace p = List.replicate size DropEvent.sendTerminate ++
        (List.range size).map DropEvent.joinThread ∧
      ∃ c ids ws, p.dropPool = some (c, ids, ws) ∧
        c.queue = p.channel.queue ++
          List.replicate p.workers.length Message.Terminate ∧
        ids = p.workers.map Worker.id ∧
        ids = List.range size ∧
        ids.length = p.workers.length ∧
        (∀ w ∈ ws, w.thread = none) := by
  intro size jobs p hs hp
  rw [poolAfter_eq size jobs hs] at hp
  have hp' : { workers := (List.range size).map Worker.new,
               channel := { queue := jobs.map Message.NewJob,
                            closed := false } } = p := Option.some.inj hp
  subst hp'
  have hlen : ((List.range size).map Worker.new).length = size := by simp
  have hjoin := joinWorkers_new (List.range size)
  constructor
  · simp only [dropTrace, hjoin, hlen]
  · have hsend := sendTerminates_open (((List.range size).map Worker.new).length)
      { queue := jobs.map Message.NewJob, closed := false } rfl
    refine ⟨{ queue := jobs.map Message.NewJob ++
                List.replicate ((List.range size).map Worker.new).length
                  Message.Terminate,
              closed := false },
      List.range size,
      (List.range size).map (fun i => { id := i, thread := none }),
      ?_, ?_, ?_, rfl, ?_, ?_⟩
    · simp only [ThreadPool.dropPool]
      simp only [hsend, hjoin]
    · simp
    · simp only [List.map_map]
      have hcomp : Worker.id ∘ Worker.new = id := rfl
      rw [hcomp, List.map_id]
    · simp
    · intro w hw
      simp only [List.mem_map] at hw
      obtain ⟨i, _, hwi⟩ := hw
      rw [← hwi]

/-- Witness for C2 at `size = 1`, no jobs submitted. -/
theorem C2_shutdown_witness :
    0 < 1 ∧
    poolAfter 1 [] = some { workers := [{ id := 0, thread := some () }],
                            channel := { queue := [], closed := false } } ∧
    (dropTrace { workers := [{ id := 0, thread := some () }],
                 channel := { queue := [], closed := false } } =
      List.replicate 1 DropEvent.sendTerminate ++
        (List.range 1).map DropEvent.joinThread ∧
      ∃ c ids ws,
        ThreadPool.dropPool { workers := [{ id := 0, thread := some () }],
                              channel := { queue := [], closed := false } } =
          some (c, ids, ws) ∧
        c.queue = ({ queue := ([] : List Message), closed := false } : Channel).queue ++
          List.replicate ([{ id := 0, thread := some () }] : List Worker).length
            Message.Terminate ∧
        ids = ([{ id := 0, thread := some () }] : List Worker).map Worker.id ∧
        ids = List.range 1 ∧
        ids.length = ([{ id := 0, thread := some () }] : List Worker).length ∧
        (∀ w ∈ ws, w.thread = none)) :=
  ⟨by decide, by decide,
   C2_shutdown 1 [] { workers := [{ id := 0, thread := some () }],
                      channel := { queue := [], closed := false } }
     (by decide) (by decide)⟩

theorem lockStates_append : ∀ (l1 l2 : List Action) (b : Bool),
    lockStates b (l1 ++ l2) =
      lockStates b l1 ++ lockStates (l1.foldl lockAfter b) l2 := by
  intro l1
  induction l1 with
  | nil => intro l2 b; rfl
  | cons a t ih =>
    intro l2 b
    have hdef : lockStates b ((a :: t) ++ l2) =
        (a, b) :: lockStates (lockAfter b a) (t ++ l2) := rfl
    rw [hdef, ih]
    rfl

theorem foldl_lockAfter_loopBody (m : Message) :
    (loopBody m).foldl lockAfter false = false := by
  cases m <;> rfl

theorem lockHeld_recv_only : ∀ (msgs : List Message) (a : Action),
    (a, true) ∈ lockStates false (workerTrace msgs) →
    a = Action.recvMsg ∨ a = Action.lockRelease := by
  intro msgs
  induction msgs with
  | nil =>
    intro a h
    simp [workerTrace, lockStates] at h
  | cons m rest ih =>
    intro a h
    cases m with
    | Terminate =>
      have htr : workerTrace (Message.Terminate :: rest) =
          loopBody Message.Terminate := by
        simp [workerTrace]
      rw [htr] at h
      simp [loopBody, lockStates, lockAfter] at h
      tauto
    | NewJob j =>
      have htr : workerTrace (Message.NewJob j :: rest) =
          loopBody (Message.NewJob j) ++ workerTrace rest := rfl
      rw [htr, lockStates_append, foldl_lockAfter_loopBody] at h
      rcases List.mem_append.mp h with h1 | h2
      · simp [loopBody, lockStates, lockAfter] at h1
        tauto
      · exact ih a h2

/-- C3: in the worker loop, the receiver lock is held only while the
dequeue is in progress — along any trace of the loop the only actions
performed with the lock held are the `recv` itself and the release that
immediately follows it; in particular no job ever begins or ends while
the lock is held, and each loop iteration releases the lock directly
after obtaining its message, before the job runs. -/
theorem C3_lock_discipline :
    (∀ (msgs : List Message) (a : Action),
      (a, true) ∈ lockStates false (workerTrace msgs) →
      a = Action.recvMsg ∨ a = Action.lockRelease) ∧
    (∀ j, loopBody (Message.NewJob j) =
      [Action.lockAcquire, Action.recvMsg, Action.lockRelease,
       Action.jobBegin j, Action.jobEnd j]) ∧
    loopBody Message.Terminate =
      [Action.lockAcquire, Action.recvMsg, Action.lockRelease,
       Action.exitLoop] :=
  ⟨lockHeld_recv_only, fun _ => rfl, rfl⟩

/-- Witness for C3 on the concrete trace of one job then terminate. -/
theorem C3_lock_discipline_witness :
    ((Action.recvMsg, true) ∈
      lockStates false (workerTrace [Message.NewJob 2, Message.Terminate])) ∧
    (Action.recvMsg = Action.recvMsg ∨ Action.recvMsg = Action.lockRelease) :=
  ⟨by decide,
   C3_lock_discipline.1 [Message.NewJob 2, Message.Terminate]
     Action.recvMsg (by decide)⟩

theorem claimFrom_map (σ : Nat → Nat) (w : Nat) (f : α → β) :
    ∀ (k : Nat) (l : List α),
    claimFrom σ w k (l.map f) = (claimFrom σ w k l).map f := by
  intro k l
  induction l generalizing k with
  | nil => rfl
  | cons x t ih =>
    simp only [List.map_cons, claimFrom]
    by_cases h : σ k = w
    · simp [h, ih]
    · simp [h, ih]

theorem workerRun_map_newJob : ∀ l : List Nat,
    workerRun (l.map Message.NewJob) = (l, false) := by
  intro l
  induction l with
  | nil => rfl
  | cons j t ih => simp [workerRun, ih]

theorem sum_if_range_zero (c : Nat) : ∀ (n t : Nat), n ≤ t →
    ((List.range n).map fun w => if t = w then c else 0).sum = 0 := by
  intro n
  induction n with
  | zero => intro t h; rfl
  | succ k ih =>
    intro t h
    rw [List.range_succ, List.map_append, List.sum_append]
    have h1 := ih t (by omega)
    have h2 : t ≠ k := by omega
    simp [h1, h2]

theorem sum_if_range (c : Nat) : ∀ (n t : Nat), t < n →
    ((List.range n).map fun w => if t = w then c else 0).sum = c := by
  intro n
  induction n with
  | zero => intro t h; omega
  | succ k ih =>
    intro t h
    rw [List.range_succ, List.map_append, List.sum_append]
    by_cases ht : t = k
    · subst ht
      have h1 := sum_if_range_zero c t t (le_refl t)
      simp [h1]
    · have h1 := ih t (by omega)
      simp [h1, ht]

theorem count_flatMap_sum (j : Nat) : ∀ (ws : List Nat) (f : Nat → List Nat),
    ((ws.flatMap f).count j) = (ws.map fun w => (f w).count j).sum := by
  intro ws f
  induction ws with
  | nil => rfl
  | cons w t ih => simp [List.flatMap_cons, List.count_append, ih]

theorem sum_map_add (l : List Nat) (g e : Nat → Nat) :
    (l.map fun w => g w + e w).sum = (l.map g).sum + (l.map e).sum := by
  induction l with
  | nil => rfl
  | cons x t ih =>
    simp only [List.map_cons, List.sum_cons, ih]
    omega

theorem count_claim (size : Nat) (σ : Nat → Nat) (j : Nat) :
    ∀ (l : List Nat) (k0 : Nat), (∀ i, i < l.length → σ (k0 + i) < size) →
    ((List.range size).flatMap fun w => claimFrom σ w k0 l).count j =
      l.count j := by
  intro l
  induction l with
  | nil =>
    intro k0 h
    simp only [claimFrom]
    rw [count_flatMap_sum]
    simp
  | cons a t ih =>
    intro k0 h
    rw [count_flatMap_sum]
    have hpoint : ∀ w : Nat, (claimFrom σ w k0 (a :: t)).count j =
        (claimFrom σ w (k0 + 1) t).count j +
          (if σ k0 = w then (if a = j then 1 else 0) else 0) := by
      intro w
      by_cases hw : σ k0 = w
      · rw [if_pos hw]
        have hc : claimFrom σ w k0 (a :: t) =
            a :: claimFrom σ w (k0 + 1) t := by
          simp [claimFrom, hw]
        rw [hc]
        simp [List.count_cons]
      · rw [if_neg hw]
        have hc : claimFrom σ w k0 (a :: t) =
            claimFrom σ w (k0 + 1) t := by
          simp [claimFrom, hw]
        rw [hc]
        simp
    have hshift : ∀ i, i < t.length → σ (k0 + 1 + i) < size := by
      intro i hi
      have h2 := h (i + 1) (by simp; omega)
      have h3 : k0 + (i + 1) = k0 + 1 + i := by omega
      rwa [h3] at h2
    have h0 : σ k0 < size := by
      have := h 0 (by simp)
      simpa using this
    calc ((List.range size).map fun w => (claimFrom σ w k0 (a :: t)).count j).sum
        = ((List.range size).map fun w =>
            (claimFrom σ w (k0 + 1) t).count j +
              (if σ k0 = w then (if a = j then 1 else 0) else 0)).sum := by
          simp only [hpoint]
      _ = ((List.range size).map fun w =>
            (claimFrom σ w (k0 + 1) t).count j).sum +
          ((List.range size).map fun w =>
            if σ k0 = w then (if a = j then 1 else 0) else 0).sum :=
          sum_map_add _ _ _
      _ = t.count j + (if a = j then 1 else 0) := by
          rw [← count_flatMap_sum, ih (k0 + 1) hshift,
            sum_if_range (if a = j then 1 else 0) size (σ k0) h0]
      _ = (a :: t).count j := by simp [List.count_cons]

/-- C6: for any sequence of submitted jobs and any claim schedule that
assigns each queued message to one of the `size` workers, the multiset of
jobs executed across the whole pool equals the multiset of jobs
submitted — each submitted job runs exactly once, none duplicated, none
dropped — provided the pool is not shut down first (the queue holds only
the job messages, no `Terminate`). -/
theorem C6_jobs_once :
    ∀ (jobs : List Nat) (size : Nat) (σ : Nat → Nat),
      (∀ k, k < jobs.length → σ k < size) →
      ∀ j, ((List.range size).flatMap fun w =>
              executedBy (jobs.map Message.NewJob) σ w).count j =
        jobs.count j := by
  intro jobs size σ h j
  have hexec : ∀ w, executedBy (jobs.map Message.NewJob) σ w =
      claimFrom σ w 0 jobs := by
    intro w
    simp only [executedBy, claimFrom_map, workerRun_map_newJob]
  simp only [hexec]
  exact count_claim size σ j jobs 0 (by intro i hi; simpa using h i hi)

/-- Witness for C6: three jobs (one value twice) on two workers with the
alternating schedule. -/
theorem C6_jobs_once_witness :
    ((List.range 2).flatMap fun w =>
        executedBy ([5, 5, 7].map Message.NewJob) (fun k => k % 2) w).count 5 =
      ([5, 5, 7] : List Nat).count 5 :=
  C6_jobs_once [5, 5, 7] 2 (fun k => k % 2)
    (by intro k hk; show k % 2 < 2; omega) 5

theorem reachable_length (init : List WState) :
    ∀ ss, reachable init ss → ss.length = init.length := by
  intro ss h
  induction h with
  | refl => rfl
  | step hr hstep ih =>
    cases hstep with
    | mk i e s' ss hlt ht =>
      rw [List.length_set]
      exact ih

/-- C7: in every pool state reachable from the initial state of a pool of
`size` workers, the number of workers concurrently busy running a job is
at most `size`, and the number of worker threads is still exactly `size`
— no thread is created after startup. -/
theorem C7_concurrency_bound :
    ∀ (size : Nat) (ss : List WState),
      reachable (List.replicate size WState.idle) ss →
      countBusy ss ≤ size ∧ ss.length = size := by
  intro size ss h
  have hl : ss.length = size := by
    have := reachable_length _ ss h
    simpa using this
  refine ⟨?_, hl⟩
  have hb : countBusy ss ≤ ss.length := List.length_filter_le _ _
  omega

/-- Witness for C7 at the initial state of a pool of one worker. -/
theorem C7_concurrency_bound_witness :
    countBusy (List.replicate 1 WState.idle) ≤ 1 ∧
    (List.replicate 1 WState.idle).length = 1 :=
  C7_concurrency_bound 1 (List.replicate 1 WState.idle) reachable.refl

theorem workerTrace_map_newJob : ∀ l : List Nat,
    workerTrace (l.map Message.NewJob) =
      l.flatMap fun j => loopBody (Message.NewJob j) := by
  intro l
  induction l with
  | nil => rfl
  | cons j t ih => simp [workerTrace, ih]

/-- C8: with a single worker and a single producer, jobs run serially in
submission order: the executed sequence equals the submitted sequence,
and in the action trace the completion of the earlier job `a` occurs
strictly before the start of the later job `b`. -/
theorem C8_serial_fifo :
    ∀ (js1 : List Nat) (a : Nat) (js2 : List Nat) (b : Nat) (js3 : List Nat),
      (workerRun ((js1 ++ a :: js2 ++ b :: js3).map Message.NewJob)).1 =
        js1 ++ a :: js2 ++ b :: js3 ∧
      ∃ t1 t2 t3,
        workerTrace ((js1 ++ a :: js2 ++ b :: js3).map Message.NewJob) =
          t1 ++ Action.jobEnd a :: (t2 ++ Action.jobBegin b :: t3) := by
  intro js1 a js2 b js3
  constructor
  · rw [workerRun_map_newJob]
  · refine ⟨(js1.flatMap fun j => loopBody (Message.NewJob j)) ++
      [Action.lockAcquire, Action.recvMsg, Action.lockRelease,
       Action.jobBegin a],
      (js2.flatMap fun j => loopBody (Message.NewJob j)) ++
      [Action.lockAcquire, Action.recvMsg, Action.lockRelease],
      Action.jobEnd b :: (js3.flatMap fun j => loopBody (Message.NewJob j)),
      ?_⟩
    rw [workerTrace_map_newJob]
    simp [loopBody, List.append_assoc]

theorem recv_open_ne_disconnected : ∀ c : Channel, c.closed = false →
    (Channel.recv c).1 ≠ RecvResult.disconnected := by
  intro c h
  obtain ⟨q, cl⟩ := c
  dsimp at h
  subst h
  cases q with
  | nil => simp [Channel.recv]
  | cons m rest => simp [Channel.recv]

theorem workerRun_exit_mem : ∀ msgs : List Message,
    (workerRun msgs).2 = true → Message.Terminate ∈ msgs := by
  intro msgs
  induction msgs with
  | nil => intro h; simp [workerRun] at h
  | cons m rest ih =>
    intro h
    cases m with
    | NewJob j =>
      have hstep : (workerRun (Message.NewJob j :: rest)).2 =
          (workerRun rest).2 := rfl
      rw [hstep] at h
      exact List.mem_cons_of_mem _ (ih h)
    | Terminate => exact List.mem_cons_self _ _

/-- C9: while the pool is alive, a worker's blocking receive can never
observe a disconnected channel, so the error branch of the loop is
unreachable: the pool built by `new` (and any number of `execute`s) holds
the channel open; the `drop` body still runs with the channel open and
puts one `Terminate` per worker in the queue; a worker loop exits only
after actually receiving a `Terminate`; and the sender is dropped — the
channel closes — only in the full destruction, after the sends and the
joins of all workers. -/
theorem C9_recv_never_fails :
    ∀ (size : Nat) (jobs : List Nat), 0 < size →
      ∃ p, poolAfter size jobs = some p ∧
        p.channel.closed = false ∧
        (∀ c : Channel, c.closed = false →
          (Channel.recv c).1 ≠ RecvResult.disconnected) ∧
        (∃ c', sendTerminates p.channel p.workers.length = some c' ∧
          c'.closed = false ∧
          c'.queue.count Message.Terminate = p.workers.length) ∧
        (∀ msgs : List Message, (workerRun msgs).2 = true →
          Message.Terminate ∈ msgs) ∧
        (∃ cfin ids ws, p.dropFull = some (cfin, ids, ws) ∧
          cfin.closed = true ∧ ids = List.range size) := by
  intro size jobs hs
  have hsend := sendTerminates_open (((List.range size).map Worker.new).length)
      { queue := jobs.map Message.NewJob, closed := false } rfl
  have hjoin := joinWorkers_new (List.range size)
  refine ⟨{ workers := (List.range size).map Worker.new,
            channel := { queue := jobs.map Message.NewJob, closed := false } },
    poolAfter_eq size jobs hs, rfl, recv_open_ne_disconnected, ?_,
    workerRun_exit_mem, ?_⟩
  · refine ⟨_, hsend, rfl, ?_⟩
    rw [List.count_append]
    have h0 : (jobs.map Message.NewJob).count Message.Terminate = 0 := by
      rw [List.count_eq_zero]
      intro hmem
      rcases List.mem_map.mp hmem with ⟨x, _, hx⟩
      exact Message.noConfusion hx
    simp [h0]
  · refine ⟨{ queue := jobs.map Message.NewJob ++
                List.replicate (((List.range size).map Worker.new).length)
                  Message.Terminate,
              closed := true },
      List.range size,
      (List.range size).map (fun i => { id := i, thread := none }),
      ?_, rfl, rfl⟩
    simp only [ThreadPool.dropFull, ThreadPool.dropPool]
    simp only [hsend, hjoin]

/-- Witness for C9 at `size = 1` with no jobs. -/
theorem C9_recv_never_fails_witness :
    ∃ p, poolAfter 1 [] = some p ∧
      p.channel.closed = false ∧
      (∀ c : Channel, c.closed = false →
        (Channel.recv c).1 ≠ RecvResult.disconnected) ∧
      (∃ c', sendTerminates p.channel p.workers.length = some c' ∧
        c'.closed = false ∧
        c'.queue.count Message.Terminate = p.workers.length) ∧
      (∀ msgs : List Message, (workerRun msgs).2 = true →
        Message.Terminate ∈ msgs) ∧
      (∃ cfin ids ws, p.dropFull = some (cfin, ids, ws) ∧
        cfin.closed = true ∧ ids = List.range 1) :=
  C9_recv_never_fails 1 [] (by decide)

theorem joinWorkers_thread_none : ∀ ws : List Worker,
    ∀ w ∈ (joinWorkers ws).2, w.thread = none := by
  intro ws
  induction ws with
  | nil => intro w hw; simp [joinWorkers] at hw
  | cons x t ih =>
    intro w hw
    cases hx : x.thread with
    | some u =>
      simp only [joinWorkers, hx] at hw
      rcases List.mem_cons.mp hw with h1 | h2
      · rw [h1]
      · exact ih w h2
    | none =>
      simp only [joinWorkers, hx] at hw
      rcases List.mem_cons.mp hw with h1 | h2
      · rw [h1]; exact hx
      · exact ih w h2

/-- C10 counterexample: the claim says the source exhibits a second
worker-loop variant with no termination path (threads never stop).  The
source has a single worker loop — the one embedded as
`workerRun`/`workerTrace` — and on the concrete input of one `Terminate`
message it stops: the run exits and the trace ends in `exitLoop`. -/
theorem C10_counterexample :
    (workerRun [Message.Terminate]).2 = true ∧
    workerTrace [Message.Terminate] =
      [Action.lockAcquire, Action.recvMsg, Action.lockRelease,
       Action.exitLoop] := by
  decide

/-- C10 (amended): the source contains exactly one worker-loop variant,
the one with explicit `Terminate` signaling and thread-handle joining on
shutdown; that loop exits whenever a `Terminate` message is received, and
the shutdown join loop leaves every worker with its handle taken, so no
worker loop of the source lacks a termination path. -/
theorem C10_single_variant :
    (∀ msgs : List Message, Message.Terminate ∈ msgs →
      (workerRun msgs).2 = true) ∧
    (∀ ws : List Worker, ∀ w ∈ (joinWorkers ws).2, w.thread = none) := by
  constructor
  · intro msgs
    induction msgs with
    | nil => intro h; simp at h
    | cons m rest ih =>
      intro h
      cases m with
      | Terminate => rfl
      | NewJob j =>
        have hmem : Message.Terminate ∈ rest := by
          rcases List.mem_cons.mp h with h1 | h2
          · exact absurd h1 (by simp)
          · exact h2
        have hstep : (workerRun (Message.NewJob j :: rest)).2 =
            (workerRun rest).2 := rfl
        rw [hstep]
        exact ih hmem
  · exact joinWorkers_thread_none

/-- Witness for C10 (amended) on a concrete message list and worker
list. -/
theorem C10_single_variant_witness :
    (workerRun [Message.NewJob 4, Message.Terminate]).2 = true ∧
    ({ id := 0, thread := none } : Worker).thread = none :=
  ⟨C10_single_variant.1 [Message.NewJob 4, Message.Terminate] (by decide),
   C10_single_variant.2 [Worker.new 0] { id := 0, thread := none } (by decide)⟩

end HelloServer
